import Mathlib

/-!
Verification of the generic sequence-diff engine of `bootstrap/diff.go`
(the revision with the candidate budget, `LCS`/`computeLCS`/`diffFindMidSnakes`/
`diffCompare`/`diffSegmentCount`, cited by the claims).

Modelling conventions (shallow embedding):

* Machine integers are modelled as `Int` (positions, diagonals, block fields)
  or `Nat` (loop counters, candidate budgets, which Go keeps non-negative).
  No overflow is modelled: the Go code only ever holds values bounded by the
  input lengths plus small constants.
* The `fwd`/`rev` tracking arrays are modelled as total functions `Int → Int`
  indexed directly by the diagonal. Go stores diagonal `k` at array index
  `k + offX` (resp. `kr + offR`); the constant shifts `offX = maxD` and
  `offR = offX - delta` are absorbed into the indexing, which is faithful for
  every read/write the loops perform. (Go's bounded arrays would panic via an
  out-of-range index only for the degenerate call with both sequences empty,
  which `computeLCS` never makes.)
* The snake-extension loops `for nextX < len(a) && ... && a[nextX] == b[nextY]`
  are modelled by `commonRunLen` over `drop`/`take` slices, which agrees with
  Go whenever the start point is inside (or clamped at) the grid; Go would
  instead panic on an index outside the slice bounds, a situation never
  reached from `computeLCS` (checked exhaustively on small inputs).
* Go's unbounded recursion in `computeLCS` is modelled with an explicit fuel
  parameter; `LCS` passes `len(a) + len(b) + 1`, which dominates the actual
  recursion depth (every recursive call shrinks the window).
* Go's `sort.Slice(ls, less)` followed by `ls[0]` is modelled by selecting
  the first element that is minimal for `diffCompare`; this coincides with
  any correct sort whenever the minimum is unique (it is, in every concrete
  case proved below).
* List reads `xs[i]` are modelled by `getI`, total with a default; every use
  proved about below stays in range.
-/

namespace ByteDiff

/-- Max candidate diffs to consider at any given point (`maxDiffCandidates`). -/
def maxDiffCandidates : Nat := 1024

/-- A block of removed (`kind = -1`), inserted (`kind = +1`), or equal
(`kind = 0`) elements, with its source/destination offsets and length
(Go `DiffBlock`). -/
structure DiffBlock where
  kind : Int
  src : Int
  dst : Int
  len : Int
deriving DecidableEq, Repr

/-- A matched run between the two sequences (Go `CommonSequence`). -/
structure CommonSequence where
  posA : Int
  posB : Int
  len : Int
deriving DecidableEq, Repr

/-- A candidate middle diagonal found by the bidirectional search
(Go `diffSnake`). -/
structure DiffSnake where
  posA : Int
  posB : Int
  len : Int
  diff : Int
deriving DecidableEq, Repr

/-- `l[i:]` for an `Int` index (Go slicing; negative clamps to 0). -/
def dropI {T : Type} (l : List T) (i : Int) : List T := l.drop i.toNat

/-- `l[:i]` for an `Int` index (Go slicing; negative clamps to 0). -/
def takeI {T : Type} (l : List T) (i : Int) : List T := l.take i.toNat

/-- `l[i:j]` for `Int` indices (Go slicing `a[ax:ay]`). -/
def sliceI {T : Type} (l : List T) (i j : Int) : List T :=
  (l.take j.toNat).drop i.toNat

/-- `l[i]` for an `Int` index, total with a default where Go would panic. -/
def getI {T : Type} (l : List T) (i : Int) (dflt : T) : T := l.getD i.toNat dflt

/-- Length of the longest common run at the heads of two lists: the number of
iterations of Go's snake-extension loop
`for nextX < len(a) && nextY < len(b) && a[nextX] == b[nextY]`. -/
def commonRunLen {T : Type} [DecidableEq T] : List T → List T → Nat
  | x :: xs, y :: ys => if x = y then commonRunLen xs ys + 1 else 0
  | _, _ => 0

/-- Pointwise update of a diagonal-indexed tracking array. -/
def upd (f : Int → Int) (k v : Int) : Int → Int :=
  fun j => if j = k then v else f j

/-- State of the bidirectional middle-snake search: the forward and reverse
furthest-reaching arrays (indexed by diagonal) and the snakes found so far. -/
structure FindState where
  fwd : Int → Int
  rev : Int → Int
  out : List DiffSnake

/-- The start point of the forward snake extension on diagonal `k`: the
non-diagonal edge extension from the neighbour diagonal `k-1` (horizontal,
`+1`) or `k+1` (vertical), preferring the horizontal extension on ties
(Go's `switch k` plus `fromK` application). -/
def fwdPosX (fwd : Int → Int) (hd k : Int) : Int :=
  if k = -hd then fwd (k + 1)
  else if k = hd then fwd (k - 1) + 1
  else if fwd (k + 1) ≤ fwd (k - 1) then fwd (k - 1) + 1 else fwd (k + 1)

/-- The end point of the forward snake extension on diagonal `k`
(Go's `for nextX < len(a) && nextY < len(b) && a[nextX] == b[nextY]`). -/
def fwdNextX {T : Type} [DecidableEq T] (a b : List T) (fwd : Int → Int)
    (hd k : Int) : Int :=
  fwdPosX fwd hd k +
    commonRunLen (dropI a (fwdPosX fwd hd k)) (dropI b (fwdPosX fwd hd k - k))

/-- One iteration of the forward inner loop of `diffFindMidSnakes` for
diagonal `k` (paired with the `break` flag used once the candidate budget is
reached). -/
def fwdStep {T : Type} [DecidableEq T] (a b : List T) (delta : Int)
    (maxCandidates : Nat) (hd : Int) (p : FindState × Bool) (k : Int) :
    FindState × Bool :=
  if p.2 then p else
  let st := p.1
  let posX := fwdPosX st.fwd hd k
  let nextX := fwdNextX a b st.fwd hd k
  let fwd' := upd st.fwd k nextX
  if delta % 2 ≠ 0 ∧ delta - (hd - 1) ≤ k ∧ k ≤ delta + (hd - 1) ∧
      st.rev k ≤ nextX then
    let s : DiffSnake := ⟨posX, posX - k, nextX - posX, 2 * hd - 1⟩
    (⟨fwd', st.rev, st.out ++ [s]⟩, decide (maxCandidates ≤ (st.out ++ [s]).length))
  else
    (⟨fwd', st.rev, st.out⟩, p.2)

/-- The start point of the reverse snake extension for loop variable `k`
(diagonal `kr = k + delta`): the non-diagonal edge extension from diagonal
`kr+1` (horizontal, `-1`) or `kr-1` (vertical), minimizing the horizontal
position (Go's reverse `switch k` plus `fromK` application). -/
def revPosX (rev : Int → Int) (delta hd k : Int) : Int :=
  if k = hd then rev (k + delta - 1)
  else if k = -hd then rev (k + delta + 1) - 1
  else if rev (k + delta + 1) ≤ rev (k + delta - 1) then rev (k + delta + 1) - 1
  else rev (k + delta - 1)

/-- The end point of the reverse snake extension
(Go's `for nextX > 0 && nextY > 0 && a[nextX-1] == b[nextY-1]`). -/
def revNextX {T : Type} [DecidableEq T] (a b : List T) (rev : Int → Int)
    (delta hd k : Int) : Int :=
  revPosX rev delta hd k -
    commonRunLen (takeI a (revPosX rev delta hd k)).reverse
      (takeI b (revPosX rev delta hd k - (k + delta))).reverse

/-- One iteration of the reverse inner loop of `diffFindMidSnakes` for loop
variable `k` (the actual diagonal is `kr = k + delta`). -/
def revStep {T : Type} [DecidableEq T] (a b : List T) (delta : Int)
    (maxCandidates : Nat) (hd : Int) (p : FindState × Bool) (k : Int) :
    FindState × Bool :=
  if p.2 then p else
  let st := p.1
  let posX := revPosX st.rev delta hd k
  let nextX := revNextX a b st.rev delta hd k
  let rev' := upd st.rev (k + delta) nextX
  if delta % 2 = 0 ∧ -hd ≤ k + delta ∧ k + delta ≤ hd ∧ nextX ≤ st.fwd (k + delta) then
    let s : DiffSnake := ⟨nextX, nextX - (k + delta), posX - nextX, 2 * hd⟩
    (⟨st.fwd, rev', st.out ++ [s]⟩, decide (maxCandidates ≤ (st.out ++ [s]).length))
  else
    (⟨st.fwd, rev', st.out⟩, p.2)

/-- The diagonals visited by the forward inner loop at half-distance `hd`:
`-hd, -hd+2, ..., hd`. -/
def fwdKs (hd : Nat) : List Int :=
  (List.range (hd + 1)).map (fun i : Nat => -(hd : Int) + 2 * (i : Int))

/-- The loop variables visited by the reverse inner loop at half-distance
`hd`: `hd, hd-2, ..., -hd`. -/
def revKs (hd : Nat) : List Int :=
  (List.range (hd + 1)).map (fun i : Nat => (hd : Int) - 2 * (i : Int))

/-- The whole forward inner loop at half-distance `hd`. -/
def fwdPass {T : Type} [DecidableEq T] (a b : List T) (delta : Int)
    (maxCandidates : Nat) (hd : Nat) (st : FindState) : FindState :=
  ((fwdKs hd).foldl (fwdStep a b delta maxCandidates (hd : Int)) (st, false)).1

/-- The whole reverse inner loop at half-distance `hd`. -/
def revPass {T : Type} [DecidableEq T] (a b : List T) (delta : Int)
    (maxCandidates : Nat) (hd : Nat) (st : FindState) : FindState :=
  ((revKs hd).foldl (revStep a b delta maxCandidates (hd : Int)) (st, false)).1

/-- The outer loop of `diffFindMidSnakes`
(`for hd := 0; len(out) == 0 && hd <= halfD; hd++`), driven by the countdown
`c` of remaining iterations (`c = halfD + 1 - hd` throughout). -/
def findLoop {T : Type} [DecidableEq T] (a b : List T) (delta : Int)
    (maxCandidates : Nat) : Nat → Nat → FindState → FindState
  | 0, _, st => st
  | c + 1, hd, st =>
    if st.out = [] then
      findLoop a b delta maxCandidates c (hd + 1)
        (revPass a b delta maxCandidates hd (fwdPass a b delta maxCandidates hd st))
    else st

/-- Find the middle snakes for the optimal edit D-paths between `a` and `b`
(Go `diffFindMidSnakes`). -/
def diffFindMidSnakes {T : Type} [DecidableEq T] (a b : List T)
    (maxCandidates : Nat) : List DiffSnake :=
  let n : Int := a.length
  let halfD : Nat := (a.length + b.length + 1) / 2
  let delta : Int := (a.length : Int) - b.length
  (findLoop a b delta maxCandidates (halfD + 1) 0
    ⟨fun _ => 0, fun _ => n, []⟩).out

/-- Compute the candidate LCS lists for the window `[ax,ay) × [bx,bY)` of
`a` and `b` (Go `computeLCS`), with an explicit fuel bounding the recursion
depth. -/
def computeLCS {T : Type} [DecidableEq T] (a b : List T) :
    Nat → Int → Int → Int → Int → Nat → List (List CommonSequence)
  | 0, _, _, _, _, _ => []
  | fuel + 1, ax, ay, bx, bY, maxCandidates =>
    if ay - ax ≤ 0 ∨ bY - bx ≤ 0 then [] else
    let mc := if maxCandidates = 0 then 1 else maxCandidates
    let n := ay - ax
    let m := bY - bx
    let ls := diffFindMidSnakes (sliceI a ax ay) (sliceI b bx bY) mc
    ls.foldl (fun out mid =>
      let midA := mid.posA + ax
      let midB := mid.posB + bx
      let mx := mc / ls.length
      if mid.diff > 1 then
        let pres0 := computeLCS a b fuel ax midA bx midB mx
        let pres := if pres0 = [] then [[]] else pres0
        pres.foldl (fun out pre =>
          let pre := if mid.len > 0 then pre ++ [⟨midA, midB, mid.len⟩] else pre
          let sufs := computeLCS a b fuel (midA + mid.len) ay (midB + mid.len) bY
            (mx / pres.length)
          let out := (sufs.foldl (fun (q : List (List CommonSequence) × Bool) pos =>
            if q.2 then q else
            let out' := q.1 ++ [pre ++ pos]
            (out', decide (mc ≤ out'.length))) (out, false)).1
          if sufs = [] then out ++ [pre] else out) out
      else
        -- If D ≤ 1 the code takes the shorter side as a single contiguous run.
        let lcs : List CommonSequence :=
          if n < m then
            if (dropI a ax).head? = (dropI b bx).head? then [⟨ax, bx, n⟩]
            else [⟨ax, bx + 1, n⟩]
          else
            if (dropI a ax).head? = (dropI b bx).head? then [⟨ax, bx, m⟩]
            else [⟨ax + 1, bx, m⟩]
        out ++ [lcs]) []

/-- Count the diff segments of a candidate LCS and its directional edit cost
(Go `diffSegmentCount`); returns `(count, editCost)`. -/
def diffSegmentCount (lcs : List CommonSequence) (lenA lenB : Int) : Int × Int :=
  let st := lcs.foldl
    (fun (q : Int × Int × Int × Int × Int) it =>
      let (count, deleteCost, insertCost, x, y) := q
      let count := if it.posA > x then count + 1 else count
      let deleteCost := if it.posA > x then deleteCost + x else deleteCost
      let count := if it.posB > y then count + 1 else count
      let insertCost := if it.posB > y then insertCost + y else insertCost
      (count, deleteCost, insertCost, it.posA + it.len, it.posB + it.len))
    ((lcs.length : Int), 0, 0, 0, 0)
  let (count, deleteCost, insertCost, x, y) := st
  let count := if x < lenA then count + 1 else count
  let deleteCost := if x < lenA then deleteCost + x else deleteCost
  let count := if y < lenB then count + 1 else count
  let insertCost := if y < lenB then insertCost + y else insertCost
  (count, if lenA < lenB then insertCost else deleteCost)

/-- Compare the diff quality of two candidate LCS results (Go `diffCompare`). -/
def diffCompare (d1 d2 : List CommonSequence) (lenA lenB : Int) : Int :=
  let s1 := diffSegmentCount d1 lenA lenB
  let s2 := diffSegmentCount d2 lenA lenB
  if s1.1 ≠ s2.1 then s1.1 - s2.1 else s1.2 - s2.2

/-- Compute the LCS of `a` and `b` (Go `LCS`): build the candidates and pick
the best one for `diffCompare` (Go sorts ascending and takes element 0; we
select the first minimum, which agrees whenever the minimum is unique). -/
def LCS {T : Type} [DecidableEq T] (a b : List T) : List CommonSequence :=
  let lenA : Int := a.length
  let lenB : Int := b.length
  let ls := computeLCS a b (a.length + b.length + 1) 0 lenA 0 lenB maxDiffCandidates
  match ls with
  | [] => []
  | c :: cs => cs.foldl (fun best d => if diffCompare d best lenA lenB < 0 then d else best) c

/-- Delete-block emission of the `computeDiff` loop body: bound to the
previous LCS block on the dst side (`Dst: dstLast`). -/
def pushDelete (out : List DiffBlock) (srcLast dstLast src : Int) :
    List DiffBlock :=
  if src - srcLast > 0 then out ++ [⟨-1, srcLast, dstLast, src - srcLast⟩]
  else out

/-- Insert-block emission of the `computeDiff` loop body: bound after the
delete, to the next LCS block, on the src side (`Src: src`). -/
def pushInsert (out : List DiffBlock) (dstLast src dst : Int) :
    List DiffBlock :=
  if dst - dstLast > 0 then out ++ [⟨1, src, dstLast, dst - dstLast⟩]
  else out

/-- Equal-block emission of the `computeDiff` loop body, merging into the
immediately preceding block when that block is also an equal block. -/
def pushEqual (out : List DiffBlock) (src dst l : Int) : List DiffBlock :=
  if l > 0 then
    match out.getLast? with
    | some last =>
      if last.kind = 0 then
        out.dropLast ++ [⟨0, last.src, last.dst, last.len + l⟩]
      else out ++ [⟨0, src, dst, l⟩]
    | none => out ++ [⟨0, src, dst, l⟩]
  else out

/-- One iteration of the block-compilation loop of `computeDiff`, processing
one LCS run from state `(srcLast, dstLast, out)`. -/
def computeDiffStep (st : Int × Int × List DiffBlock) (it : CommonSequence) :
    Int × Int × List DiffBlock :=
  (it.posA + it.len, it.posB + it.len,
    pushEqual
      (pushInsert (pushDelete st.2.2 st.1 st.2.1 it.posA) st.2.1 it.posA it.posB)
      it.posA it.posB it.len)

/-- Compile the chosen LCS into the block list (Go `computeDiff`): walk the
runs plus a trailing sentinel run at `(len a, len b)`. -/
def computeDiff {T : Type} [DecidableEq T] (a b : List T) : List DiffBlock :=
  ((LCS a b ++ [({posA := (a.length : Int), posB := (b.length : Int), len := 0} :
      CommonSequence)]).foldl computeDiffStep (0, 0, [])).2.2

/-- The public diff result (Go `Diff[T]`). -/
structure Diff (T : Type) where
  src : List T
  dst : List T
  blocks : List DiffBlock

/-- Go `Compare`. -/
def Compare {T : Type} [DecidableEq T] (input output : List T) : Diff T :=
  ⟨input, output, computeDiff input output⟩

/-- Go `Diff.Blocks`. -/
def Diff.Blocks {T : Type} (diff : Diff T) : List DiffBlock := diff.blocks

/-- Go `Diff.Text` for string elements (`fmt.Sprintf("%c%v", sign, txt)`
prepends the sign character to the element). -/
def Diff.Text (diff : Diff String) : List String :=
  diff.Blocks.foldl (fun out op =>
    let sign := if op.kind < 0 then "-" else if op.kind > 0 then "+" else " "
    out ++ (List.range op.len.toNat).map (fun i =>
      sign ++ (if op.kind > 0 then getI diff.dst (op.dst + i) ""
               else getI diff.src (op.src + i) ""))) []

/-!  Reconstruction procedure of the round-trip property: walk the blocks in
order, copying `a`'s elements for equal blocks, skipping `a`'s elements for
delete blocks, and emitting `b`'s elements for insert blocks. -/

/-- Apply an edit script to `a` (with `b` supplying the inserted elements) as
the round-trip property prescribes. -/
def applyBlocks {T : Type} (a b : List T) (blocks : List DiffBlock) : List T :=
  blocks.foldl (fun acc blk =>
    if blk.kind = 0 then acc ++ sliceI a blk.src (blk.src + blk.len)
    else if blk.kind > 0 then acc ++ sliceI b blk.dst (blk.dst + blk.len)
    else acc) []

/-! ### Helper lemmas -/

theorem commonRunLen_self {T : Type} [DecidableEq T] (l : List T) :
    commonRunLen l l = l.length := by
  induction l with
  | nil => rfl
  | cons x xs ih => simp [commonRunLen, ih]

theorem dropI_zero {T : Type} (l : List T) : dropI l 0 = l := rfl

theorem takeI_length {T : Type} (l : List T) : takeI l (l.length : Int) = l := by
  simp [takeI]

theorem sliceI_full {T : Type} (l : List T) : sliceI l 0 (l.length : Int) = l := by
  simp [sliceI]

/-! ### Claim theorems: concrete evaluations -/

/-- C1. The round-trip property fails on the code: for `A = ["a","b"]` and
`B = ["a","x","b"]` the edit script of `Compare(A, B)` reconstructs
`["a","b","b"]`, not `B`.  (The `D ≤ 1` base case of `computeLCS` represents
the shorter sequence as one contiguous run even when the single inserted
element falls in the middle, so the equal block claims `A[0..2) = B[0..2)`,
which is false.) -/
theorem C1_roundtrip_fails :
    applyBlocks ["a", "b"] ["a", "x", "b"]
        ((Compare ["a", "b"] ["a", "x", "b"]).Blocks) = ["a", "b", "b"] ∧
    applyBlocks ["a", "b"] ["a", "x", "b"]
        ((Compare ["a", "b"] ["a", "x", "b"]).Blocks) ≠ ["a", "x", "b"] := by
  decide

/-- C2. The element-wise equality invariant of `CommonSequence` fails on the
code: `LCS(["a","b"], ["a","x","b"])` returns the single run
`{posA := 0, posB := 0, len := 2}`, yet `A[0+1] = "b" ≠ "x" = B[0+1]`. -/
theorem C2_run_equality_fails :
    LCS ["a", "b"] ["a", "x", "b"] = [⟨0, 0, 2⟩] ∧
    getI ["a", "b"] (0 + 1) "" = "b" ∧
    getI ["a", "x", "b"] (0 + 1) "" = "x" ∧
    getI ["a", "b"] (0 + 1) "" ≠ getI ["a", "x", "b"] (0 + 1) "" := by
  decide

/-- C4 (counterexample). The claim that a gap delete block is
`{kind := -1, src := srcLast, dst := posB, len := posA - srcLast}` — with
`dst` pinned to the upcoming run's `posB` — fails on the code: for
`A = ["a"]`, `B = ["b"]` the selected LCS is empty, the only run walked is the
sentinel `{posA := 1, posB := 1, len := 0}` and the emitted delete block is
`{-1, 0, 0, 1}` (its `Dst` is `dstLast = 0`), while the claim predicts
`{-1, 0, 1, 1}`, which does not occur in the output at all. -/
theorem C4_delete_dst_counterexample :
    LCS ["a"] ["b"] = [] ∧
    (Compare ["a"] ["b"]).Blocks = [⟨-1, 0, 0, 1⟩, ⟨1, 1, 0, 1⟩] ∧
    (⟨-1, 0, 1, 1⟩ : DiffBlock) ∉ (Compare ["a"] ["b"]).Blocks := by
  decide

/-- C5 (counterexample). For the concrete inputs of the claim, `Text()` does
not return the list the claim states: the candidate ranking of
`diffCompare`/`diffSegmentCount` selects the candidate LCS with the lower
delete cost (3 instead of 5), so the `+b`-variant diff of the claim loses. -/
theorem C5_text_counterexample :
    (Compare ["a", "b", "c", "a", "b", "b", "a"]
        ["c", "b", "a", "b", "a", "c"]).Text ≠
      ["-a", "-b", " c", "+b", " a", " b", "-b", " a", "+c"] := by
  decide

/-- C5 (amended). For `A = ["a","b","c","a","b","b","a"]` and
`B = ["c","b","a","b","a","c"]`, `Compare(A, B).Text()` returns exactly
`["-a","-b"," c","-a"," b","+a"," b"," a","+c"]`. -/
theorem C5_text_amended :
    (Compare ["a", "b", "c", "a", "b", "b", "a"]
        ["c", "b", "a", "b", "a", "c"]).Text =
      ["-a", "-b", " c", "-a", " b", "+a", " b", " a", "+c"] := by
  decide

/-- C9 (counterexample). `Compare(A, A)` does not always yield exactly one
equal block: for the empty sequence the block list is empty, not the
single zero-length equal block the claim requires. -/
theorem C9_empty_input_counterexample :
    (Compare ([] : List String) ([] : List String)).Blocks = [] ∧
    (Compare ([] : List String) ([] : List String)).Blocks ≠ [⟨0, 0, 0, 0⟩] := by
  decide

/-! ### C10: every emitted block has a positive length -/

theorem pushDelete_len_pos (out : List DiffBlock) (srcLast dstLast src : Int)
    (h : ∀ b ∈ out, 1 ≤ b.len) :
    ∀ b ∈ pushDelete out srcLast dstLast src, 1 ≤ b.len := by
  intro b hb
  unfold pushDelete at hb
  split_ifs at hb with hc
  · rcases List.mem_append.1 hb with hb | hb
    · exact h b hb
    · simp at hb; subst hb; simpa using by omega
  · exact h b hb

theorem pushInsert_len_pos (out : List DiffBlock) (dstLast src dst : Int)
    (h : ∀ b ∈ out, 1 ≤ b.len) :
    ∀ b ∈ pushInsert out dstLast src dst, 1 ≤ b.len := by
  intro b hb
  unfold pushInsert at hb
  split_ifs at hb with hc
  · rcases List.mem_append.1 hb with hb | hb
    · exact h b hb
    · simp at hb; subst hb; simpa using by omega
  · exact h b hb

theorem pushEqual_len_pos (out : List DiffBlock) (src dst l : Int)
    (h : ∀ b ∈ out, 1 ≤ b.len) :
    ∀ b ∈ pushEqual out src dst l, 1 ≤ b.len := by
  intro b hb
  unfold pushEqual at hb
  split_ifs at hb with hc
  · rcases hlast : out.getLast? with _ | last
    · rw [hlast] at hb
      rcases List.mem_append.1 hb with hb | hb
      · exact h b hb
      · simp at hb; subst hb; simpa using by omega
    · have hmem : last ∈ out := by
        rcases List.getLast?_eq_some_iff.1 hlast with ⟨ys, rfl⟩
        simp
      rw [hlast] at hb
      dsimp only at hb
      split_ifs at hb with hk
      · rcases List.mem_append.1 hb with hb | hb
        · exact h b (List.dropLast_subset out hb)
        · have hl := h last hmem
          simp at hb; subst hb; simpa using by omega
      · rcases List.mem_append.1 hb with hb | hb
        · exact h b hb
        · simp at hb; subst hb; simpa using by omega
  · exact h b hb

theorem computeDiffStep_len_pos (st : Int × Int × List DiffBlock)
    (it : CommonSequence) (h : ∀ blk ∈ st.2.2, 1 ≤ blk.len) :
    ∀ blk ∈ (computeDiffStep st it).2.2, 1 ≤ blk.len :=
  pushEqual_len_pos _ _ _ _
    (pushInsert_len_pos _ _ _ _ (pushDelete_len_pos _ _ _ _ h))

theorem foldl_computeDiffStep_len_pos (runs : List CommonSequence)
    (st : Int × Int × List DiffBlock) (h : ∀ blk ∈ st.2.2, 1 ≤ blk.len) :
    ∀ blk ∈ (runs.foldl computeDiffStep st).2.2, 1 ≤ blk.len := by
  induction runs generalizing st with
  | nil => exact h
  | cons r rs ih => exact ih _ (computeDiffStep_len_pos _ _ h)

/-- C10. Every `DiffBlock` in the list returned by `Compare(A, B).Blocks()`
has `Len ≥ 1`: delete and insert blocks are emitted only for strictly
positive gaps, equal blocks only for strictly positive run lengths, and
merging only adds positive lengths. -/
theorem C10_every_block_positive_len {T : Type} [DecidableEq T] (a b : List T)
    (blk : DiffBlock) (h : blk ∈ (Compare a b).Blocks) : 1 ≤ blk.len := by
  exact foldl_computeDiffStep_len_pos _ (0, 0, []) (by simp) blk h

/-- Witness for C10 at a concrete input. -/
theorem C10_every_block_positive_len_witness :
    (⟨0, 0, 0, 1⟩ : DiffBlock) ∈ (Compare ["a"] ["a"]).Blocks ∧
    (1 : Int) ≤ (DiffBlock.len ⟨0, 0, 0, 1⟩) :=
  ⟨by decide, C10_every_block_positive_len ["a"] ["a"] ⟨0, 0, 0, 1⟩ (by decide)⟩

/-! ### C4 (amended): the gap delete block binds its `dst` to `dstLast` -/

theorem pushEqual_of_last_kind_ne (ys : List DiffBlock) (z : DiffBlock)
    (hz : z.kind ≠ 0) (src dst l : Int) :
    ∃ rest, pushEqual (ys ++ [z]) src dst l = ys ++ z :: rest := by
  unfold pushEqual
  split_ifs with hc
  · rw [List.getLast?_concat]
    dsimp only
    rw [if_neg hz]
    exact ⟨[⟨0, src, dst, l⟩], by simp⟩
  · exact ⟨[], by simp⟩

/-- C4 (amended). Whenever the diff compiler emits a delete block for a gap
before an LCS run `(posA, posB, length)` — i.e. `posA > srcLast` — the
emitted block is `{kind := -1, src := srcLast, dst := dstLast,
len := posA - srcLast}`: its `Dst` field equals `dstLast`, the end of the
previous run on the destination side (binding the delete before any insert
that follows), not the upcoming run's `posB`. -/
theorem C4_delete_dst_amended (st : Int × Int × List DiffBlock)
    (it : CommonSequence) (h : st.1 < it.posA) :
    ∃ rest, (computeDiffStep st it).2.2 =
      st.2.2 ++ ⟨-1, st.1, st.2.1, it.posA - st.1⟩ :: rest := by
  have hdel : pushDelete st.2.2 st.1 st.2.1 it.posA =
      st.2.2 ++ [⟨-1, st.1, st.2.1, it.posA - st.1⟩] := by
    unfold pushDelete
    rw [if_pos (by omega)]
  show ∃ rest, pushEqual (pushInsert (pushDelete st.2.2 st.1 st.2.1 it.posA)
      st.2.1 it.posA it.posB) it.posA it.posB it.len = _
  rw [hdel]
  unfold pushInsert
  split_ifs with hins
  · rcases pushEqual_of_last_kind_ne
        (st.2.2 ++ [⟨-1, st.1, st.2.1, it.posA - st.1⟩])
        ⟨1, it.posA, st.2.1, it.posB - st.2.1⟩ (by simp) it.posA it.posB it.len
      with ⟨rest, hrest⟩
    refine ⟨⟨1, it.posA, st.2.1, it.posB - st.2.1⟩ :: rest, ?_⟩
    rw [List.append_assoc] at hrest
    simpa using hrest
  · rcases pushEqual_of_last_kind_ne st.2.2
        ⟨-1, st.1, st.2.1, it.posA - st.1⟩ (by simp) it.posA it.posB it.len
      with ⟨rest, hrest⟩
    exact ⟨rest, hrest⟩

/-- Witness for the amended C4 at a concrete input (the state reached before
the sentinel run of `Compare(["a"], ["b"])`). -/
theorem C4_delete_dst_amended_witness :
    (0 : Int) < (1 : Int) ∧
    ∃ rest, (computeDiffStep (0, 0, []) ⟨1, 1, 0⟩).2.2 =
      [] ++ ⟨-1, 0, 0, 1⟩ :: rest :=
  ⟨by decide, C4_delete_dst_amended (0, 0, []) ⟨1, 1, 0⟩ (by decide)⟩

/-! ### C8: the candidate budget bounds the number of returned snakes

Only one of the two inner loops can ever emit snakes for a given input (the
forward loop requires `delta` odd, the reverse loop `delta` even), and the
emitting loop breaks as soon as the budget is reached, so the output length
never exceeds the budget. -/

section Budget

variable {T : Type} [DecidableEq T] (a b : List T) (delta : Int)
  (mc : Nat) (hdI : Int)

theorem fwdStep_out_of_even (h : delta % 2 = 0) (p : FindState × Bool)
    (k : Int) :
    (fwdStep a b delta mc hdI p k).1.out = p.1.out ∧
    (fwdStep a b delta mc hdI p k).2 = p.2 := by
  simp only [fwdStep]
  by_cases hb : p.2
  · rw [if_pos hb]; exact ⟨rfl, rfl⟩
  · rw [if_neg hb]
    split_ifs with hc
    · exact absurd h hc.1
    · exact ⟨rfl, rfl⟩

theorem revStep_out_of_odd (h : delta % 2 ≠ 0) (p : FindState × Bool)
    (k : Int) :
    (revStep a b delta mc hdI p k).1.out = p.1.out ∧
    (revStep a b delta mc hdI p k).2 = p.2 := by
  simp only [revStep]
  by_cases hb : p.2
  · rw [if_pos hb]; exact ⟨rfl, rfl⟩
  · rw [if_neg hb]
    split_ifs with hc
    · exact absurd hc.1 h
    · exact ⟨rfl, rfl⟩

/-- Budget invariant for one pass: the output never exceeds the budget, and
once it reaches the budget the break flag is set. -/
def BudgetInv (mc : Nat) (p : FindState × Bool) : Prop :=
  p.1.out.length ≤ mc ∧ (p.1.out.length = mc → p.2 = true)

theorem fwdStep_budget (p : FindState × Bool) (k : Int)
    (h : BudgetInv mc p) : BudgetInv mc (fwdStep a b delta mc hdI p k) := by
  obtain ⟨h1, h2⟩ := h
  simp only [fwdStep]
  by_cases hb : p.2
  · rw [if_pos hb]; exact ⟨h1, h2⟩
  · rw [if_neg hb]
    split_ifs with hc
    · have hlt : p.1.out.length < mc := by
        rcases lt_or_eq_of_le h1 with hx | hx
        · exact hx
        · exact absurd (h2 hx) hb
      refine ⟨by simpa using hlt, fun hlen => ?_⟩
      simp only [decide_eq_true_eq]
      simp only [List.length_append, List.length_cons, List.length_nil] at hlen ⊢
      omega
    · exact ⟨h1, h2⟩

theorem revStep_budget (p : FindState × Bool) (k : Int)
    (h : BudgetInv mc p) : BudgetInv mc (revStep a b delta mc hdI p k) := by
  obtain ⟨h1, h2⟩ := h
  simp only [revStep]
  by_cases hb : p.2
  · rw [if_pos hb]; exact ⟨h1, h2⟩
  · rw [if_neg hb]
    split_ifs with hc
    · have hlt : p.1.out.length < mc := by
        rcases lt_or_eq_of_le h1 with hx | hx
        · exact hx
        · exact absurd (h2 hx) hb
      refine ⟨by simpa using hlt, fun hlen => ?_⟩
      simp only [decide_eq_true_eq]
      simp only [List.length_append, List.length_cons, List.length_nil] at hlen ⊢
      omega
    · exact ⟨h1, h2⟩

theorem foldl_fwdStep_out_of_even (h : delta % 2 = 0) (ks : List Int) :
    ∀ p : FindState × Bool,
      ((ks.foldl (fwdStep a b delta mc hdI) p).1.out = p.1.out) := by
  induction ks with
  | nil => intro p; rfl
  | cons k ks ih =>
    intro p
    rw [List.foldl_cons, ih, (fwdStep_out_of_even a b delta mc hdI h p k).1]

theorem foldl_revStep_out_of_odd (h : delta % 2 ≠ 0) (ks : List Int) :
    ∀ p : FindState × Bool,
      ((ks.foldl (revStep a b delta mc hdI) p).1.out = p.1.out) := by
  induction ks with
  | nil => intro p; rfl
  | cons k ks ih =>
    intro p
    rw [List.foldl_cons, ih, (revStep_out_of_odd a b delta mc hdI h p k).1]

theorem foldl_fwdStep_budget (ks : List Int) :
    ∀ p : FindState × Bool, BudgetInv mc p →
      BudgetInv mc (ks.foldl (fwdStep a b delta mc hdI) p) := by
  induction ks with
  | nil => intro p h; exact h
  | cons k ks ih =>
    intro p h
    exact ih _ (fwdStep_budget a b delta mc hdI p k h)

theorem foldl_revStep_budget (ks : List Int) :
    ∀ p : FindState × Bool, BudgetInv mc p →
      BudgetInv mc (ks.foldl (revStep a b delta mc hdI) p) := by
  induction ks with
  | nil => intro p h; exact h
  | cons k ks ih =>
    intro p h
    exact ih _ (revStep_budget a b delta mc hdI p k h)

theorem pass_budget (hmc : 1 ≤ mc) (hd : Nat) (st : FindState)
    (hout : st.out = []) :
    (revPass a b delta mc hd (fwdPass a b delta mc hd st)).out.length ≤ mc := by
  by_cases hpar : delta % 2 = 0
  · have h1 : (fwdPass a b delta mc hd st).out = st.out :=
      foldl_fwdStep_out_of_even a b delta mc (hd : Int) hpar (fwdKs hd) (st, false)
    have h2 : BudgetInv mc ((fwdPass a b delta mc hd st), false) := by
      refine ⟨?_, ?_⟩
      · rw [h1, hout]; simp
      · intro hlen
        rw [h1, hout] at hlen
        simp at hlen
        omega
    exact (foldl_revStep_budget a b delta mc (hd : Int) (revKs hd) _ h2).1
  · have h2 : BudgetInv mc (st, false) := by
      refine ⟨by rw [hout]; simp, ?_⟩
      intro hlen
      rw [hout] at hlen
      simp at hlen
      omega
    have h3 := foldl_fwdStep_budget a b delta mc (hd : Int) (fwdKs hd) (st, false) h2
    have h4 : (revPass a b delta mc hd (fwdPass a b delta mc hd st)).out
        = (fwdPass a b delta mc hd st).out :=
      foldl_revStep_out_of_odd a b delta mc (hd : Int) hpar (revKs hd)
        ((fwdPass a b delta mc hd st), false)
    rw [h4]
    exact h3.1

theorem findLoop_budget (hmc : 1 ≤ mc) (c : Nat) :
    ∀ (hd : Nat) (st : FindState), (st.out = [] ∨ st.out.length ≤ mc) →
      (findLoop a b delta mc c hd st).out.length ≤ mc := by
  induction c with
  | zero =>
    intro hd st h
    rcases h with h | h
    · simp [findLoop, h]
    · simpa [findLoop] using h
  | succ c ih =>
    intro hd st h
    unfold findLoop
    split_ifs with hout
    · exact ih (hd + 1) _ (Or.inr (pass_budget a b delta mc hmc hd st hout))
    · rcases h with h | h
      · exact absurd h hout
      · exact h

end Budget

/-- C8. For every pair of finite sequences and every candidate budget
`maxCandidates ≥ 1`, `diffFindMidSnakes` returns at most `maxCandidates`
snakes: snake collection stops early once the budget is reached (and only
one of the two inner loops can emit, by the parity of `delta`). -/
theorem C8_budget_bound {T : Type} [DecidableEq T] (a b : List T) (mc : Nat)
    (hmc : 1 ≤ mc) : (diffFindMidSnakes a b mc).length ≤ mc := by
  unfold diffFindMidSnakes
  exact findLoop_budget a b _ mc hmc _ 0 _ (Or.inl rfl)

/-- Witness for C8 at a concrete input and budget. -/
theorem C8_budget_bound_witness :
    1 ≤ 1 ∧ (diffFindMidSnakes ["a"] ["b"] 1).length ≤ 1 :=
  ⟨by decide, C8_budget_bound ["a"] ["b"] 1 (by decide)⟩

/-! ### C9 (amended): `Compare(A, A)` for non-empty `A`

For `A = A` the bidirectional search meets at half-distance 0: the forward
pass extends the full self-matching diagonal and the reverse pass walks it
back, so `diffFindMidSnakes` returns the single snake `(0, 0, |A|, 0)`;
the `D ≤ 1` base case of `computeLCS` then produces the full-length run and
`computeDiff` a single equal block. -/

theorem upd_apply_same (f : Int → Int) (k v : Int) : upd f k v k = v := by
  simp [upd]

theorem fwdKs_zero : fwdKs 0 = [0] := by
  decide

theorem revKs_zero : revKs 0 = [0] := by
  decide

theorem findLoop_of_out_ne {T : Type} [DecidableEq T] (a b : List T)
    (delta : Int) (mc c hd : Nat) (st : FindState) (h : st.out ≠ []) :
    findLoop a b delta mc c hd st = st := by
  cases c with
  | zero => rfl
  | succ c => simp [findLoop, h]

theorem fwdStep_no_emit {T : Type} [DecidableEq T] (a b : List T)
    (delta : Int) (mc : Nat) (hdI : Int) (p : FindState × Bool) (k : Int)
    (hp : p.2 = false)
    (hc : ¬(delta % 2 ≠ 0 ∧ delta - (hdI - 1) ≤ k ∧ k ≤ delta + (hdI - 1) ∧
      p.1.rev k ≤ fwdNextX a b p.1.fwd hdI k)) :
    fwdStep a b delta mc hdI p k =
      (⟨upd p.1.fwd k (fwdNextX a b p.1.fwd hdI k), p.1.rev, p.1.out⟩, false) := by
  simp only [fwdStep]
  rw [if_neg (by simp [hp]), if_neg hc, hp]

theorem revStep_emit {T : Type} [DecidableEq T] (a b : List T)
    (delta : Int) (mc : Nat) (hdI : Int) (p : FindState × Bool) (k : Int)
    (hp : p.2 = false)
    (hc : delta % 2 = 0 ∧ -hdI ≤ k + delta ∧ k + delta ≤ hdI ∧
      revNextX a b p.1.rev delta hdI k ≤ p.1.fwd (k + delta)) :
    revStep a b delta mc hdI p k =
      (⟨p.1.fwd, upd p.1.rev (k + delta) (revNextX a b p.1.rev delta hdI k),
        p.1.out ++ [⟨revNextX a b p.1.rev delta hdI k,
          revNextX a b p.1.rev delta hdI k - (k + delta),
          revPosX p.1.rev delta hdI k - revNextX a b p.1.rev delta hdI k,
          2 * hdI⟩]⟩,
        decide (mc ≤ (p.1.out ++ [(⟨revNextX a b p.1.rev delta hdI k,
          revNextX a b p.1.rev delta hdI k - (k + delta),
          revPosX p.1.rev delta hdI k - revNextX a b p.1.rev delta hdI k,
          2 * hdI⟩ : DiffSnake)]).length)) := by
  simp only [revStep]
  rw [if_neg (by simp [hp]), if_pos hc]

theorem diffFindMidSnakes_self {T : Type} [DecidableEq T] (a : List T)
    (mc : Nat) :
    diffFindMidSnakes a a mc = [⟨0, 0, (a.length : Int), 0⟩] := by
  simp only [diffFindMidSnakes]
  rw [show (a.length + a.length + 1) / 2 = a.length from by omega, sub_self]
  have hfwd : fwdPass a a 0 mc 0 ⟨fun _ => 0, fun _ => (a.length : Int), []⟩ =
      ⟨upd (fun _ => 0) 0 (a.length : Int), fun _ => (a.length : Int), []⟩ := by
    unfold fwdPass
    rw [fwdKs_zero]
    simp only [List.foldl_cons, List.foldl_nil, Nat.cast_zero]
    rw [fwdStep_no_emit a a 0 mc 0 (⟨fun _ => 0, fun _ => (a.length : Int), []⟩, false)
      0 rfl (by intro hcond; exact hcond.1 rfl)]
    have : fwdNextX a a (fun _ => (0 : Int)) 0 0 = (a.length : Int) := by
      simp [fwdNextX, fwdPosX, dropI, commonRunLen_self]
    rw [this]
  have hrev : revPass a a 0 mc 0
      ⟨upd (fun _ => 0) 0 (a.length : Int), fun _ => (a.length : Int), []⟩ =
      ⟨upd (fun _ => 0) 0 (a.length : Int), upd (fun _ => (a.length : Int)) 0 0,
        [⟨0, 0, (a.length : Int), 0⟩]⟩ := by
    unfold revPass
    rw [revKs_zero]
    simp only [List.foldl_cons, List.foldl_nil, Nat.cast_zero]
    have hnext : revNextX a a (fun _ => ((a.length : Int))) 0 0 0 = 0 := by
      simp [revNextX, revPosX, takeI]
      simp [commonRunLen_self]
    rw [revStep_emit a a 0 mc 0
      (⟨upd (fun _ => 0) 0 (a.length : Int), fun _ => (a.length : Int), []⟩, false) 0 rfl
      (by
        refine ⟨rfl, by norm_num, by norm_num, ?_⟩
        rw [hnext]
        show (0 : Int) ≤ upd (fun _ => 0) 0 (a.length : Int) (0 + 0)
        rw [show (0 : Int) + 0 = 0 from rfl, upd_apply_same]
        exact Int.natCast_nonneg a.length)]
    rw [hnext]
    have hpos : revPosX (fun _ => ((a.length : Int))) 0 0 0 = (a.length : Int) := by
      simp [revPosX]
    rw [hpos]
    norm_num
  rw [findLoop]
  rw [if_pos rfl, hfwd, hrev,
    findLoop_of_out_ne a a 0 mc a.length 1 _ (by simp)]

theorem computeLCS_self {T : Type} [DecidableEq T] (a : List T) (ha : a ≠ [])
    (fuel mc : Nat) :
    computeLCS a a (fuel + 1) 0 (a.length : Int) 0 (a.length : Int) mc =
      [[⟨0, 0, (a.length : Int)⟩]] := by
  have hlen : 0 < a.length := List.length_pos.2 ha
  simp only [computeLCS]
  rw [if_neg (by push_neg; constructor <;> omega)]
  rw [sliceI_full, diffFindMidSnakes_self]
  simp only [List.foldl_cons, List.foldl_nil]
  rw [if_neg (by norm_num)]
  rw [if_neg (by omega)]
  simp

theorem LCS_self {T : Type} [DecidableEq T] (a : List T) (ha : a ≠ []) :
    LCS a a = [⟨0, 0, (a.length : Int)⟩] := by
  simp only [LCS]
  rw [computeLCS_self a ha (a.length + a.length) maxDiffCandidates]
  simp

/-- C9 (amended). For every non-empty sequence `A`, `Compare(A, A)` yields a
block list consisting of exactly one equal block
`{kind := 0, src := 0, dst := 0, len := len(A)}` spanning the full length,
and no insert or delete blocks.  (For empty `A` the block list is empty, see
the counterexample.) -/
theorem pushDelete_skip (out : List DiffBlock) (srcLast dstLast src : Int)
    (h : ¬src - srcLast > 0) : pushDelete out srcLast dstLast src = out :=
  if_neg h

theorem pushInsert_skip (out : List DiffBlock) (dstLast src dst : Int)
    (h : ¬dst - dstLast > 0) : pushInsert out dstLast src dst = out :=
  if_neg h

theorem pushEqual_skip (out : List DiffBlock) (src dst l : Int)
    (h : ¬l > 0) : pushEqual out src dst l = out :=
  if_neg h

theorem pushEqual_nil (src dst l : Int) (h : l > 0) :
    pushEqual [] src dst l = [⟨0, src, dst, l⟩] := by
  unfold pushEqual
  rw [if_pos h]
  rfl

theorem C9_compare_self_amended {T : Type} [DecidableEq T] (a : List T)
    (ha : a ≠ []) :
    (Compare a a).Blocks = [⟨0, 0, 0, (a.length : Int)⟩] := by
  have hlen : 0 < a.length := List.length_pos.2 ha
  show computeDiff a a = _
  unfold computeDiff
  rw [LCS_self a ha]
  simp only [List.cons_append, List.nil_append, List.foldl_cons, List.foldl_nil]
  have h1 : computeDiffStep (0, 0, []) ⟨0, 0, (a.length : Int)⟩ =
      ((a.length : Int), (a.length : Int), [⟨0, 0, 0, (a.length : Int)⟩]) := by
    unfold computeDiffStep
    dsimp only
    rw [pushDelete_skip _ _ _ _ (by norm_num), pushInsert_skip _ _ _ _ (by norm_num),
      pushEqual_nil _ _ _ (by exact_mod_cast hlen)]
    norm_num
  rw [h1]
  have h2 : computeDiffStep ((a.length : Int), (a.length : Int),
      [⟨0, 0, 0, (a.length : Int)⟩]) ⟨(a.length : Int), (a.length : Int), 0⟩ =
      ((a.length : Int) + 0, (a.length : Int) + 0, [⟨0, 0, 0, (a.length : Int)⟩]) := by
    unfold computeDiffStep
    dsimp only
    rw [pushDelete_skip _ _ _ _ (by omega), pushInsert_skip _ _ _ _ (by omega),
      pushEqual_skip _ _ _ _ (by norm_num)]
  rw [h2]

/-- Witness for the amended C9 at a concrete input. -/
theorem C9_compare_self_amended_witness :
    (["x"] : List String) ≠ [] ∧
    (Compare ["x"] ["x"]).Blocks = [⟨0, 0, 0, 1⟩] :=
  ⟨by decide, C9_compare_self_amended ["x"] (by decide)⟩

/-! ### C7: the bidirectional search always finds an overlap

For non-empty inputs the search cannot exhaust the outer loop without ever
emitting a snake.  The proof keeps two quantitative invariants over the
tracking arrays — after `t` completed half-steps every explored forward
diagonal `k` satisfies `t + k ≤ 2 * fwd k`, and every explored reverse
diagonal `kr` satisfies `2 * rev kr ≤ 2n - (t + delta - kr)` — and shows
that at `hd = halfD` the overlap test on the extreme explored diagonal is
forced to succeed by pure arithmetic. -/

/-- Lower bound on the forward furthest-reaching values after `t` completed
half-steps, over the explored diagonals of the matching parity. -/
def FwdLB (t : Int) (fwd : Int → Int) : Prop :=
  ∀ k : Int, -t ≤ k → k ≤ t → (k - t) % 2 = 0 → t + k ≤ 2 * fwd k

/-- Upper bound on the reverse furthest-reaching values after `t` completed
half-steps, over the explored diagonals of the matching parity. -/
def RevUB (n delta t : Int) (rev : Int → Int) : Prop :=
  ∀ kr : Int, delta - t ≤ kr → kr ≤ delta + t → (kr - delta - t) % 2 = 0 →
    2 * rev kr ≤ 2 * n - (t + delta - kr)

theorem fwdPosX_nonneg (fwd : Int → Int) (t k : Int)
    (hnn : ∀ j, 0 ≤ fwd j) : 0 ≤ fwdPosX fwd t k := by
  unfold fwdPosX
  split_ifs with h1 h2 h3
  · exact hnn (k + 1)
  · have := hnn (k - 1); omega
  · have := hnn (k - 1); omega
  · exact hnn (k + 1)

theorem revPosX_le (rev : Int → Int) (n delta t k : Int)
    (hle : ∀ j, rev j ≤ n) : revPosX rev delta t k ≤ n := by
  unfold revPosX
  split_ifs with h1 h2 h3
  · exact hle (k + delta - 1)
  · have := hle (k + delta + 1); omega
  · have := hle (k + delta + 1); omega
  · exact hle (k + delta - 1)

theorem fwdPosX_le_fwdNextX {T : Type} [DecidableEq T] (a b : List T)
    (fwd : Int → Int) (t k : Int) :
    fwdPosX fwd t k ≤ fwdNextX a b fwd t k := by
  unfold fwdNextX
  have := Int.natCast_nonneg (commonRunLen (dropI a (fwdPosX fwd t k))
    (dropI b (fwdPosX fwd t k - k)))
  omega

theorem revNextX_le_revPosX {T : Type} [DecidableEq T] (a b : List T)
    (rev : Int → Int) (delta t k : Int) :
    revNextX a b rev delta t k ≤ revPosX rev delta t k := by
  unfold revNextX
  have := Int.natCast_nonneg (commonRunLen (takeI a (revPosX rev delta t k)).reverse
    (takeI b (revPosX rev delta t k - (k + delta))).reverse)
  omega

theorem fwdPosX_lb (fwd : Int → Int) (t k : Int) (ht : 0 ≤ t)
    (hnn : ∀ j, 0 ≤ fwd j) (hlb : FwdLB (t - 1) fwd)
    (hk1 : -t ≤ k) (hk2 : k ≤ t) (hpar : (k - t) % 2 = 0) :
    t + k ≤ 2 * fwdPosX fwd t k := by
  unfold fwdPosX
  split_ifs with h1 h2 h3
  · have := hnn (k + 1); omega
  · have := hlb (k - 1) (by omega) (by omega) (by omega)
    omega
  · have := hlb (k - 1) (by omega) (by omega) (by omega)
    omega
  · have := hlb (k + 1) (by omega) (by omega) (by omega)
    omega

theorem revPosX_ub (rev : Int → Int) (n delta t k : Int) (ht : 0 ≤ t)
    (hle : ∀ j, rev j ≤ n) (hub : RevUB n delta (t - 1) rev)
    (hk1 : -t ≤ k) (hk2 : k ≤ t) (hpar : (k - t) % 2 = 0) :
    2 * revPosX rev delta t k ≤ 2 * n - (t - k) := by
  unfold revPosX
  split_ifs with h1 h2 h3
  · have := hle (k + delta - 1); omega
  · have := hub (k + delta + 1) (by omega) (by omega) (by omega)
    omega
  · have := hub (k + delta + 1) (by omega) (by omega) (by omega)
    omega
  · have := hub (k + delta - 1) (by omega) (by omega) (by omega)
    omega

theorem mem_fwdKs (t : Nat) (k : Int) :
    k ∈ fwdKs t ↔ (-(t : Int) ≤ k ∧ k ≤ t ∧ (k - t) % 2 = 0) := by
  simp only [fwdKs, List.mem_map, List.mem_range]
  constructor
  · rintro ⟨i, hi, rfl⟩
    have hi' : (i : Int) < (t : Int) + 1 := by exact_mod_cast hi
    refine ⟨by omega, by omega, by omega⟩
  · rintro ⟨h1, h2, h3⟩
    obtain ⟨j, hj⟩ : ∃ j : Int, k + t = 2 * j := ⟨(k + t) / 2, by omega⟩
    have hj0 : 0 ≤ j := by omega
    refine ⟨j.toNat, by omega, by omega⟩

theorem mem_revKs (t : Nat) (k : Int) :
    k ∈ revKs t ↔ (-(t : Int) ≤ k ∧ k ≤ t ∧ (k - t) % 2 = 0) := by
  simp only [revKs, List.mem_map, List.mem_range]
  constructor
  · rintro ⟨i, hi, rfl⟩
    have hi' : (i : Int) < (t : Int) + 1 := by exact_mod_cast hi
    refine ⟨by omega, by omega, by omega⟩
  · rintro ⟨h1, h2, h3⟩
    obtain ⟨j, hj⟩ : ∃ j : Int, t - k = 2 * j := ⟨(t - k) / 2, by omega⟩
    have hj0 : 0 ≤ j := by omega
    refine ⟨j.toNat, by omega, by omega⟩

theorem fwdPosX_congr (f g : Int → Int) (t k : Int)
    (h1 : f (k - 1) = g (k - 1)) (h2 : f (k + 1) = g (k + 1)) :
    fwdPosX f t k = fwdPosX g t k := by
  unfold fwdPosX
  rw [h1, h2]

theorem fwdNextX_congr {T : Type} [DecidableEq T] (a b : List T)
    (f g : Int → Int) (t k : Int)
    (h1 : f (k - 1) = g (k - 1)) (h2 : f (k + 1) = g (k + 1)) :
    fwdNextX a b f t k = fwdNextX a b g t k := by
  unfold fwdNextX
  rw [fwdPosX_congr f g t k h1 h2]

theorem revPosX_congr (f g : Int → Int) (delta t k : Int)
    (h1 : f (k + delta - 1) = g (k + delta - 1))
    (h2 : f (k + delta + 1) = g (k + delta + 1)) :
    revPosX f delta t k = revPosX g delta t k := by
  unfold revPosX
  rw [h1, h2]

theorem revNextX_congr {T : Type} [DecidableEq T] (a b : List T)
    (f g : Int → Int) (delta t k : Int)
    (h1 : f (k + delta - 1) = g (k + delta - 1))
    (h2 : f (k + delta + 1) = g (k + delta + 1)) :
    revNextX a b f delta t k = revNextX a b g delta t k := by
  unfold revNextX
  rw [revPosX_congr f g delta t k h1 h2]

section FoldChar

variable {T : Type} [DecidableEq T] (a b : List T) (delta : Int)
  (mc : Nat) (hdI : Int)

theorem fwdStep_out_emit (p : FindState × Bool) (k : Int) (hp : p.2 = false)
    (hc : delta % 2 ≠ 0 ∧ delta - (hdI - 1) ≤ k ∧ k ≤ delta + (hdI - 1) ∧
      p.1.rev k ≤ fwdNextX a b p.1.fwd hdI k) :
    (fwdStep a b delta mc hdI p k).1.out =
      p.1.out ++ [⟨fwdPosX p.1.fwd hdI k, fwdPosX p.1.fwd hdI k - k,
        fwdNextX a b p.1.fwd hdI k - fwdPosX p.1.fwd hdI k, 2 * hdI - 1⟩] := by
  simp only [fwdStep]
  rw [if_neg (by simp [hp]), if_pos hc]

theorem revStep_out_emit (p : FindState × Bool) (k : Int) (hp : p.2 = false)
    (hc : delta % 2 = 0 ∧ -hdI ≤ k + delta ∧ k + delta ≤ hdI ∧
      revNextX a b p.1.rev delta hdI k ≤ p.1.fwd (k + delta)) :
    (revStep a b delta mc hdI p k).1.out =
      p.1.out ++ [⟨revNextX a b p.1.rev delta hdI k,
        revNextX a b p.1.rev delta hdI k - (k + delta),
        revPosX p.1.rev delta hdI k - revNextX a b p.1.rev delta hdI k,
        2 * hdI⟩] := by
  simp only [revStep]
  rw [if_neg (by simp [hp]), if_pos hc]

theorem revStep_no_emit (p : FindState × Bool) (k : Int) (hp : p.2 = false)
    (hc : ¬(delta % 2 = 0 ∧ -hdI ≤ k + delta ∧ k + delta ≤ hdI ∧
      revNextX a b p.1.rev delta hdI k ≤ p.1.fwd (k + delta))) :
    revStep a b delta mc hdI p k =
      (⟨p.1.fwd, upd p.1.rev (k + delta) (revNextX a b p.1.rev delta hdI k),
        p.1.out⟩, false) := by
  simp only [revStep]
  rw [if_neg (by simp [hp]), if_neg hc, hp]

theorem fwdStep_out_length_mono (p : FindState × Bool) (k : Int) :
    p.1.out.length ≤ (fwdStep a b delta mc hdI p k).1.out.length := by
  simp only [fwdStep]
  by_cases hb : p.2
  · rw [if_pos hb]
  · rw [if_neg hb]
    split_ifs with hc
    · simp
    · exact le_refl _

theorem revStep_out_length_mono (p : FindState × Bool) (k : Int) :
    p.1.out.length ≤ (revStep a b delta mc hdI p k).1.out.length := by
  simp only [revStep]
  by_cases hb : p.2
  · rw [if_pos hb]
  · rw [if_neg hb]
    split_ifs with hc
    · simp
    · exact le_refl _

theorem foldl_fwdStep_out_length_mono (ks : List Int) :
    ∀ p : FindState × Bool,
      p.1.out.length ≤ ((ks.foldl (fwdStep a b delta mc hdI) p)).1.out.length := by
  induction ks with
  | nil => intro p; exact le_refl _
  | cons k ks ih =>
    intro p
    exact le_trans (fwdStep_out_length_mono a b delta mc hdI p k) (ih _)

theorem foldl_revStep_out_length_mono (ks : List Int) :
    ∀ p : FindState × Bool,
      p.1.out.length ≤ ((ks.foldl (revStep a b delta mc hdI) p)).1.out.length := by
  induction ks with
  | nil => intro p; exact le_refl _
  | cons k ks ih =>
    intro p
    exact le_trans (revStep_out_length_mono a b delta mc hdI p k) (ih _)

/-- Characterization of a whole forward inner loop that finishes with an
unchanged snake list: no overlap test succeeded, the reverse array and break
flag are untouched, and the forward array holds the values computed from the
pre-pass state (the iterations are independent because writes and reads have
opposite diagonal parities). -/
theorem fwdFold_char (ks : List Int) :
    ∀ (p : FindState × Bool)
      (hpar : ∀ k ∈ ks, (k - hdI) % 2 = 0)
      (hp : p.2 = false)
      (hres : (ks.foldl (fwdStep a b delta mc hdI) p).1.out = p.1.out),
      (∀ j, j ∉ ks → (ks.foldl (fwdStep a b delta mc hdI) p).1.fwd j = p.1.fwd j) ∧
      ((ks.foldl (fwdStep a b delta mc hdI) p).1.rev = p.1.rev) ∧
      ((ks.foldl (fwdStep a b delta mc hdI) p).2 = false) ∧
      (∀ k ∈ ks, (ks.foldl (fwdStep a b delta mc hdI) p).1.fwd k =
        fwdNextX a b p.1.fwd hdI k) ∧
      (∀ k ∈ ks, ¬(delta % 2 ≠ 0 ∧ delta - (hdI - 1) ≤ k ∧ k ≤ delta + (hdI - 1) ∧
        p.1.rev k ≤ fwdNextX a b p.1.fwd hdI k)) := by
  induction ks with
  | nil =>
    intro p hpar hp hres
    exact ⟨fun j _ => rfl, rfl, hp, fun k hk => absurd hk (List.not_mem_nil k),
      fun k hk => absurd hk (List.not_mem_nil k)⟩
  | cons k0 ks ih =>
    intro p hpar hp hres
    have hpar0 : (k0 - hdI) % 2 = 0 := hpar k0 (List.mem_cons_self k0 ks)
    by_cases hc : delta % 2 ≠ 0 ∧ delta - (hdI - 1) ≤ k0 ∧ k0 ≤ delta + (hdI - 1) ∧
        p.1.rev k0 ≤ fwdNextX a b p.1.fwd hdI k0
    · exfalso
      have hstep := fwdStep_out_emit a b delta mc hdI p k0 hp hc
      have hmono := foldl_fwdStep_out_length_mono a b delta mc hdI ks
        (fwdStep a b delta mc hdI p k0)
      rw [List.foldl_cons] at hres
      have := congrArg List.length hres
      rw [hstep] at hmono
      simp at hmono this
      omega
    · have hstep := fwdStep_no_emit a b delta mc hdI p k0 hp hc
      rw [List.foldl_cons, hstep] at hres ⊢
      set v0 := fwdNextX a b p.1.fwd hdI k0 with hv0
      set p' : FindState × Bool := (⟨upd p.1.fwd k0 v0, p.1.rev, p.1.out⟩, false)
        with hp'
      have hne : ∀ j, j ≠ k0 → p'.1.fwd j = p.1.fwd j := by
        intro j hj
        simp [hp', upd, hj]
      have hread : ∀ k : Int, (k - hdI) % 2 = 0 →
          fwdNextX a b p'.1.fwd hdI k = fwdNextX a b p.1.fwd hdI k := by
        intro k hk
        refine fwdNextX_congr a b _ _ hdI k (hne _ ?_) (hne _ ?_) <;> omega
      obtain ⟨c1, c2, c3, c4, c5⟩ := ih p' (fun k hk => hpar k (List.mem_cons_of_mem _ hk))
        rfl hres
      refine ⟨?_, ?_, c3, ?_, ?_⟩
      · intro j hj
        rw [c1 j (fun h => hj (List.mem_cons_of_mem _ h)),
          hne j (fun h => hj (h ▸ List.mem_cons_self k0 ks))]
      · exact c2
      · intro k hk
        rcases List.mem_cons.1 hk with rfl | hk
        · by_cases hmem : k ∈ ks
          · rw [c4 k hmem, hread k hpar0]
          · rw [c1 k hmem]
            simp [hp', upd]
        · rw [c4 k hk, hread k (hpar k (List.mem_cons_of_mem _ hk))]
      · intro k hk
        rcases List.mem_cons.1 hk with rfl | hk
        · exact hc
        · have h5 := c5 k hk
          rw [hread k (hpar k (List.mem_cons_of_mem _ hk))] at h5
          simpa [hp'] using h5

/-- Characterization of a whole reverse inner loop that finishes with an
unchanged snake list, symmetric to `fwdFold_char`. -/
theorem revFold_char (ks : List Int) :
    ∀ (p : FindState × Bool)
      (hpar : ∀ k ∈ ks, (k - hdI) % 2 = 0)
      (hp : p.2 = false)
      (hres : (ks.foldl (revStep a b delta mc hdI) p).1.out = p.1.out),
      (∀ j, (∀ k ∈ ks, j ≠ k + delta) →
        (ks.foldl (revStep a b delta mc hdI) p).1.rev j = p.1.rev j) ∧
      ((ks.foldl (revStep a b delta mc hdI) p).1.fwd = p.1.fwd) ∧
      ((ks.foldl (revStep a b delta mc hdI) p).2 = false) ∧
      (∀ k ∈ ks, (ks.foldl (revStep a b delta mc hdI) p).1.rev (k + delta) =
        revNextX a b p.1.rev delta hdI k) ∧
      (∀ k ∈ ks, ¬(delta % 2 = 0 ∧ -hdI ≤ k + delta ∧ k + delta ≤ hdI ∧
        revNextX a b p.1.rev delta hdI k ≤ p.1.fwd (k + delta))) := by
  induction ks with
  | nil =>
    intro p hpar hp hres
    exact ⟨fun j _ => rfl, rfl, hp, fun k hk => absurd hk (List.not_mem_nil k),
      fun k hk => absurd hk (List.not_mem_nil k)⟩
  | cons k0 ks ih =>
    intro p hpar hp hres
    have hpar0 : (k0 - hdI) % 2 = 0 := hpar k0 (List.mem_cons_self k0 ks)
    by_cases hc : delta % 2 = 0 ∧ -hdI ≤ k0 + delta ∧ k0 + delta ≤ hdI ∧
        revNextX a b p.1.rev delta hdI k0 ≤ p.1.fwd (k0 + delta)
    · exfalso
      have hstep := revStep_out_emit a b delta mc hdI p k0 hp hc
      have hmono := foldl_revStep_out_length_mono a b delta mc hdI ks
        (revStep a b delta mc hdI p k0)
      rw [List.foldl_cons] at hres
      have := congrArg List.length hres
      rw [hstep] at hmono
      simp at hmono this
      omega
    · have hstep := revStep_no_emit a b delta mc hdI p k0 hp hc
      rw [List.foldl_cons, hstep] at hres ⊢
      set v0 := revNextX a b p.1.rev delta hdI k0 with hv0
      set p' : FindState × Bool := (⟨p.1.fwd, upd p.1.rev (k0 + delta) v0, p.1.out⟩, false)
        with hp'
      have hne : ∀ j, j ≠ k0 + delta → p'.1.rev j = p.1.rev j := by
        intro j hj
        simp [hp', upd, hj]
      have hread : ∀ k : Int, (k - hdI) % 2 = 0 →
          revNextX a b p'.1.rev delta hdI k = revNextX a b p.1.rev delta hdI k := by
        intro k hk
        refine revNextX_congr a b _ _ delta hdI k (hne _ ?_) (hne _ ?_) <;> omega
      obtain ⟨c1, c2, c3, c4, c5⟩ := ih p' (fun k hk => hpar k (List.mem_cons_of_mem _ hk))
        rfl hres
      refine ⟨?_, ?_, c3, ?_, ?_⟩
      · intro j hj
        rw [c1 j (fun k hk => hj k (List.mem_cons_of_mem _ hk)),
          hne j (hj k0 (List.mem_cons_self k0 ks))]
      · exact c2
      · intro k hk
        rcases List.mem_cons.1 hk with rfl | hk
        · by_cases hmem : ∃ k' ∈ ks, k + delta = k' + delta
          · obtain ⟨k', hk', heq⟩ := hmem
            have hkk : k = k' := by omega
            subst hkk
            rw [c4 k hk', hread k hpar0]
          · push_neg at hmem
            rw [c1 (k + delta) hmem]
            simp [hp', upd]
        · rw [c4 k hk, hread k (hpar k (List.mem_cons_of_mem _ hk))]
      · intro k hk
        rcases List.mem_cons.1 hk with rfl | hk
        · exact hc
        · have h5 := c5 k hk
          rw [hread k (hpar k (List.mem_cons_of_mem _ hk))] at h5
          simpa [hp'] using h5

end FoldChar

/-- The loop invariant of the bidirectional search after `t` completed
half-steps (at entry of iteration `hd`, `t = hd - 1`). -/
def FindInv (n delta t : Int) (st : FindState) : Prop :=
  (∀ j, 0 ≤ st.fwd j) ∧ (∀ j, st.rev j ≤ n) ∧ FwdLB t st.fwd ∧
    RevUB n delta t st.rev

theorem pass_maintains {T : Type} [DecidableEq T] (a b : List T) (mc : Nat)
    (t : Nat) (st : FindState) (hout : st.out = [])
    (hI : FindInv (a.length : Int) ((a.length : Int) - (b.length : Int))
      ((t : Int) - 1) st)
    (hempty : (revPass a b ((a.length : Int) - (b.length : Int)) mc t
      (fwdPass a b ((a.length : Int) - (b.length : Int)) mc t st)).out = []) :
    FindInv (a.length : Int) ((a.length : Int) - (b.length : Int)) (t : Int)
      (revPass a b ((a.length : Int) - (b.length : Int)) mc t
        (fwdPass a b ((a.length : Int) - (b.length : Int)) mc t st)) := by
  obtain ⟨hnn, hle, hflb, hrub⟩ := hI
  set delta := (a.length : Int) - (b.length : Int) with hdelta
  set st1 := fwdPass a b delta mc t st with hst1
  set st2 := revPass a b delta mc t st1 with hst2
  have hst1out : st1.out = [] := by
    have h2 : st1.out.length ≤ st2.out.length :=
      foldl_revStep_out_length_mono a b delta mc (t : Int) (revKs t) (st1, false)
    have h3 : st2.out.length = 0 := by rw [hempty]; rfl
    exact List.length_eq_zero.1 (by omega)
  obtain ⟨f1, f2, f3, f4, f5⟩ := fwdFold_char a b delta mc (t : Int) (fwdKs t)
    (st, false) (fun k hk => ((mem_fwdKs t k).1 hk).2.2) rfl
    (show st1.out = st.out by rw [hst1out, hout])
  obtain ⟨r1, r2, r3, r4, r5⟩ := revFold_char a b delta mc (t : Int) (revKs t)
    (st1, false) (fun k hk => ((mem_revKs t k).1 hk).2.2) rfl
    (show st2.out = st1.out by rw [hst1out, hempty])
  refine ⟨?_, ?_, ?_, ?_⟩
  · intro j
    rw [show st2.fwd = st1.fwd from r2]
    by_cases hj : j ∈ fwdKs t
    · rw [show st1.fwd j = fwdNextX a b st.fwd (t : Int) j from f4 j hj]
      have h1 := fwdPosX_nonneg st.fwd (t : Int) j hnn
      have h2 := fwdPosX_le_fwdNextX a b st.fwd (t : Int) j
      omega
    · rw [show st1.fwd j = st.fwd j from f1 j hj]
      exact hnn j
  · intro j
    by_cases hj : ∃ k ∈ revKs t, j = k + delta
    · obtain ⟨k, hk, rfl⟩ := hj
      rw [show st2.rev (k + delta) = revNextX a b st1.rev delta (t : Int) k from
        r4 k hk, show st1.rev = st.rev from f2]
      have h1 := revNextX_le_revPosX a b st.rev delta (t : Int) k
      have h2 := revPosX_le st.rev (a.length : Int) delta (t : Int) k hle
      omega
    · push_neg at hj
      rw [show st2.rev j = st1.rev j from r1 j hj, show st1.rev = st.rev from f2]
      exact hle j
  · intro k h1 h2 h3
    have hk : k ∈ fwdKs t := (mem_fwdKs t k).2 ⟨h1, h2, h3⟩
    rw [show st2.fwd = st1.fwd from r2,
      show st1.fwd k = fwdNextX a b st.fwd (t : Int) k from f4 k hk]
    have hb1 := fwdPosX_lb st.fwd (t : Int) k (by omega) hnn hflb h1 h2 h3
    have hb2 := fwdPosX_le_fwdNextX a b st.fwd (t : Int) k
    omega
  · intro kr h1 h2 h3
    have hk : (kr - delta) ∈ revKs t := (mem_revKs t (kr - delta)).2
      ⟨by omega, by omega, by omega⟩
    have hval : st2.rev kr = revNextX a b st1.rev delta (t : Int) (kr - delta) := by
      have h4 := r4 (kr - delta) hk
      rw [show kr - delta + delta = kr from by ring] at h4
      exact h4
    rw [hval, show st1.rev = st.rev from f2]
    have hb1 := revNextX_le_revPosX a b st.rev delta (t : Int) (kr - delta)
    have hb2 := revPosX_ub st.rev (a.length : Int) delta (t : Int) (kr - delta)
      (by omega) hle hrub (by omega) (by omega) (by omega)
    omega

theorem pass_fires {T : Type} [DecidableEq T] (a b : List T) (mc : Nat)
    (hn : 1 ≤ a.length) (hm : 1 ≤ b.length) (st : FindState) (hout : st.out = [])
    (hI : FindInv (a.length : Int) ((a.length : Int) - (b.length : Int))
      ((((a.length + b.length + 1) / 2 : Nat) : Int) - 1) st) :
    (revPass a b ((a.length : Int) - (b.length : Int)) mc
      ((a.length + b.length + 1) / 2)
      (fwdPass a b ((a.length : Int) - (b.length : Int)) mc
        ((a.length + b.length + 1) / 2) st)).out ≠ [] := by
  intro hempty
  obtain ⟨hnn, hle, hflb, hrub⟩ := hI
  set delta := (a.length : Int) - (b.length : Int) with hdelta
  set t := (a.length + b.length + 1) / 2 with ht
  set st1 := fwdPass a b delta mc t st with hst1
  set st2 := revPass a b delta mc t st1 with hst2
  have hst1out : st1.out = [] := by
    have h2 : st1.out.length ≤ st2.out.length :=
      foldl_revStep_out_length_mono a b delta mc (t : Int) (revKs t) (st1, false)
    have h3 : st2.out.length = 0 := by rw [hempty]; rfl
    exact List.length_eq_zero.1 (by omega)
  obtain ⟨f1, f2, f3, f4, f5⟩ := fwdFold_char a b delta mc (t : Int) (fwdKs t)
    (st, false) (fun k hk => ((mem_fwdKs t k).1 hk).2.2) rfl
    (show st1.out = st.out by rw [hst1out, hout])
  obtain ⟨r1, r2, r3, r4, r5⟩ := revFold_char a b delta mc (t : Int) (revKs t)
    (st1, false) (fun k hk => ((mem_revKs t k).1 hk).2.2) rfl
    (show st2.out = st1.out by rw [hst1out, hempty])
  by_cases hpar : delta % 2 = 0
  · -- delta even: the overlap test is forced during the reverse pass on the
    -- extreme explored diagonal
    have h2t : 2 * (t : Int) = (a.length : Int) + (b.length : Int) := by omega
    rcases le_or_lt 0 delta with hsign | hsign
    · have hmem : (-(t : Int)) ∈ revKs t := (mem_revKs t _).2
        ⟨by omega, by omega, by omega⟩
      refine r5 (-(t : Int)) hmem ⟨hpar, by omega, by omega, ?_⟩
      rw [show st1.rev = st.rev from f2]
      have hb1 := revNextX_le_revPosX a b st.rev delta (t : Int) (-(t : Int))
      have hb2 := revPosX_ub st.rev (a.length : Int) delta (t : Int) (-(t : Int))
        (by omega) hle hrub (by omega) (by omega) (by omega)
      have hkr : (-(t : Int) + delta) ∈ fwdKs t := (mem_fwdKs t _).2
        ⟨by omega, by omega, by omega⟩
      rw [show st1.fwd (-(t : Int) + delta) =
        fwdNextX a b st.fwd (t : Int) (-(t : Int) + delta) from f4 _ hkr]
      have hb3 := fwdPosX_lb st.fwd (t : Int) (-(t : Int) + delta) (by omega) hnn
        hflb (by omega) (by omega) (by omega)
      have hb4 := fwdPosX_le_fwdNextX a b st.fwd (t : Int) (-(t : Int) + delta)
      omega
    · have hmem : ((t : Int)) ∈ revKs t := (mem_revKs t _).2
        ⟨by omega, by omega, by omega⟩
      refine r5 ((t : Int)) hmem ⟨hpar, by omega, by omega, ?_⟩
      rw [show st1.rev = st.rev from f2]
      have hb1 := revNextX_le_revPosX a b st.rev delta (t : Int) ((t : Int))
      have hb2 := revPosX_ub st.rev (a.length : Int) delta (t : Int) ((t : Int))
        (by omega) hle hrub (by omega) (by omega) (by omega)
      have hkr : ((t : Int) + delta) ∈ fwdKs t := (mem_fwdKs t _).2
        ⟨by omega, by omega, by omega⟩
      rw [show st1.fwd ((t : Int) + delta) =
        fwdNextX a b st.fwd (t : Int) ((t : Int) + delta) from f4 _ hkr]
      have hb3 := fwdPosX_lb st.fwd (t : Int) ((t : Int) + delta) (by omega) hnn
        hflb (by omega) (by omega) (by omega)
      have hb4 := fwdPosX_le_fwdNextX a b st.fwd (t : Int) ((t : Int) + delta)
      omega
  · -- delta odd: the overlap test is forced during the forward pass
    have h2t : 2 * (t : Int) = (a.length : Int) + (b.length : Int) + 1 := by omega
    rcases lt_or_le 0 delta with hsign | hsign
    · have hmem : ((t : Int)) ∈ fwdKs t := (mem_fwdKs t _).2
        ⟨by omega, by omega, by omega⟩
      refine f5 ((t : Int)) hmem ⟨hpar, by omega, by omega, ?_⟩
      show st.rev ((t : Int)) ≤ fwdNextX a b st.fwd (t : Int) ((t : Int))
      have hb1 := hrub ((t : Int)) (by omega) (by omega) (by omega)
      have hb2 := fwdPosX_lb st.fwd (t : Int) ((t : Int)) (by omega) hnn hflb
        (by omega) (by omega) (by omega)
      have hb3 := fwdPosX_le_fwdNextX a b st.fwd (t : Int) ((t : Int))
      omega
    · have hsign' : delta < 0 := by omega
      have hmem : (-(t : Int)) ∈ fwdKs t := (mem_fwdKs t _).2
        ⟨by omega, by omega, by omega⟩
      refine f5 (-(t : Int)) hmem ⟨hpar, by omega, by omega, ?_⟩
      show st.rev (-(t : Int)) ≤ fwdNextX a b st.fwd (t : Int) (-(t : Int))
      have hb1 := hrub (-(t : Int)) (by omega) (by omega) (by omega)
      have hb2 := fwdPosX_lb st.fwd (t : Int) (-(t : Int)) (by omega) hnn hflb
        (by omega) (by omega) (by omega)
      have hb3 := fwdPosX_le_fwdNextX a b st.fwd (t : Int) (-(t : Int))
      omega

theorem findLoop_fires {T : Type} [DecidableEq T] (a b : List T) (mc : Nat)
    (hn : 1 ≤ a.length) (hm : 1 ≤ b.length) :
    ∀ (c t : Nat) (st : FindState), 1 ≤ c →
      t + c = (a.length + b.length + 1) / 2 + 1 →
      st.out = [] →
      FindInv (a.length : Int) ((a.length : Int) - (b.length : Int))
        ((t : Int) - 1) st →
      (findLoop a b ((a.length : Int) - (b.length : Int)) mc c t st).out ≠ [] := by
  intro c
  induction c with
  | zero => intro t st hc; omega
  | succ c ih =>
    intro t st hc harith hout hI
    rw [findLoop, if_pos hout]
    by_cases hc0 : c = 0
    · subst hc0
      have ht : t = (a.length + b.length + 1) / 2 := by omega
      subst ht
      intro hcontra
      have := pass_fires a b mc hn hm st hout hI
      rw [findLoop] at hcontra
      exact this hcontra
    · by_cases hne : (revPass a b ((a.length : Int) - (b.length : Int)) mc t
          (fwdPass a b ((a.length : Int) - (b.length : Int)) mc t st)).out = []
      · have hinv := pass_maintains a b mc t st hout hI hne
        have hcast : ((t + 1 : Nat) : Int) - 1 = (t : Int) := by push_cast; ring
        refine ih (t + 1) _ (by omega) (by omega) hne ?_
        rw [hcast]
        exact hinv
      · rw [findLoop_of_out_ne _ _ _ _ _ _ _ hne]
        exact hne

/-- C7. For every pair of non-empty sequences and every candidate budget
`≥ 1`, `diffFindMidSnakes` returns a non-empty list of snakes: the
bidirectional search always finds an overlap at some half-distance
`hd ≤ halfD = ⌈(n+m)/2⌉`, so the failure branch (returning no snake) is
unreachable for non-empty inputs. -/
theorem C7_find_nonempty {T : Type} [DecidableEq T] (a b : List T) (mc : Nat)
    (ha : a ≠ []) (hb : b ≠ []) (hmc : 1 ≤ mc) :
    diffFindMidSnakes a b mc ≠ [] := by
  have hn : 1 ≤ a.length := List.length_pos.2 ha
  have hm : 1 ≤ b.length := List.length_pos.2 hb
  simp only [diffFindMidSnakes]
  refine findLoop_fires a b mc hn hm ((a.length + b.length + 1) / 2 + 1) 0
    ⟨fun _ => 0, fun _ => (a.length : Int), []⟩ (by omega) (by omega) rfl ?_
  refine ⟨fun j => le_refl 0, fun j => le_refl _, ?_, ?_⟩
  · intro k h1 h2 h3
    omega
  · intro kr h1 h2 h3
    omega

/-- Witness for C7 at a concrete input. -/
theorem C7_find_nonempty_witness :
    (["a"] : List String) ≠ [] ∧ (["b"] : List String) ≠ [] ∧ 1 ≤ 1 ∧
    diffFindMidSnakes ["a"] ["b"] 1 ≠ [] :=
  ⟨by decide, by decide, by decide,
    C7_find_nonempty ["a"] ["b"] 1 (by decide) (by decide) (by decide)⟩
